import Mathlib

/-!
Verification development for the Nexus_Lang repository.

The repository ships one complete, executable translation unit,
`src/Src/main.cpp`, containing `SimpleTokenizer` and the stub
`NexusInterpreter`; the remaining files are declaration-only headers
(`lexer.h`, `value.h`, the `Environment` header, `interpreter.h`) whose
implementations (`lexer.cpp`, `value.cpp`, `environment.cpp`,
`interpreter.cpp`) are not in the repository.  The first part of this file
is a faithful shallow embedding of the code of `src/Src/main.cpp`; the
second part models, from the specification, the components whose
implementations are missing; the third part holds the claim theorems.
-/

/- ===================================================================
   Part 1a.  Embedding of SimpleTokenizer (src/Src/main.cpp, lines 30-144).
   The C++ `std::string source` with cursor `current` is represented by the
   list of not-yet-consumed characters; `line` and `column` are threaded
   explicitly, exactly as the line/column members of the class.
   =================================================================== -/

namespace SimpleTokenizer

/-- Token kinds of the stub lexer (`enum class TokenType` in src/Src/main.cpp). -/
inductive TokenType where
  | IDENTIFIER
  | NUMBER
  | STRING
  | KEYWORD
  | OPERATOR
  | DELIMITER
  | NEWLINE
  | EOF_TOKEN
deriving DecidableEq, Repr

/-- A token of the stub lexer: kind, lexeme, line, column (struct Token). -/
structure Token where
  type : TokenType
  value : List Char
  line : Nat
  column : Nat
deriving DecidableEq, Repr

/-- Character class of C `isspace` in the default locale: space, tab,
newline, vertical tab, form feed, carriage return. -/
def isSpaceChar (c : Char) : Bool :=
  c = ' ' || c = '\t' || c = '\n' || c = Char.ofNat 11 || c = Char.ofNat 12 || c = '\r'

/-- Character class of C `isalpha` in the default locale (ASCII letters). -/
def isAlphaChar (c : Char) : Bool :=
  ('a' ≤ c && c ≤ 'z') || ('A' ≤ c && c ≤ 'Z')

/-- Character class of C `isdigit`. -/
def isDigitChar (c : Char) : Bool :=
  ('0' ≤ c && c ≤ '9')

/-- Character class of C `isalnum`. -/
def isAlnumChar (c : Char) : Bool :=
  isAlphaChar c || isDigitChar c

/-- The keyword table of SimpleTokenizer (its `keywords` map).  `print` is
not in it. -/
def keywords : List (List Char) :=
  ["var", "int", "double", "string", "bool",
   "if", "else", "while", "for", "function",
   "class", "return", "true", "false", "null",
   "model", "train", "predict", "tensor", "import"].map String.toList

/-- Greedy scan of a character class, returning the scanned run and the
remaining input (the `while … advance()` loops of `identifier`/`number`). -/
def spanP (p : Char → Bool) : List Char → List Char × List Char
  | [] => ([], [])
  | c :: cs =>
    if p c then
      let r := spanP p cs
      (c :: r.1, r.2)
    else ([], c :: cs)

/-- `skipWhitespace`: consume whitespace other than newline, incrementing
`column` once per consumed character (each `advance()` call). -/
def skipWs : List Char → Nat → List Char × Nat
  | [], col => ([], col)
  | c :: cs, col =>
    if isSpaceChar c ∧ c ≠ '\n' then skipWs cs (col + 1) else (c :: cs, col)

/-- Result of the scanning loop inside `SimpleTokenizer::string`: the
characters seen, the unconsumed input (beginning with the closing quote
when one was found), and the updated line/column counters. -/
structure StrScan where
  contents : List Char
  rest : List Char
  line : Nat
  column : Nat
deriving DecidableEq, Repr

/-- The loop of `SimpleTokenizer::string`: advance until end of input or a
closing quote, incrementing `line` at each embedded newline and `column`
at each `advance()`. -/
def scanStr : List Char → Nat → Nat → StrScan
  | [], line, col => ⟨[], [], line, col⟩
  | c :: cs, line, col =>
    if c = '"' then ⟨[], c :: cs, line, col⟩
    else
      let r := scanStr cs (if c = '\n' then line + 1 else line) (col + 1)
      ⟨c :: r.contents, r.rest, r.line, r.column⟩

/-- The token-producing loop of `SimpleTokenizer::tokenize`.  The fuel
argument only bounds the number of loop iterations; `tokenize` passes
`source.length + 1`, which is sufficient because every iteration consumes
at least one character (fuel exhaustion, returning `[]`, is unreachable
from `tokenize`). -/
def tokenizeLoop : Nat → List Char → Nat → Nat → List Token
  | 0, _, _, _ => []
  | fuel + 1, rest, line, col =>
    match skipWs rest col with
    | ([], col1) => [⟨.EOF_TOKEN, [], line, col1⟩]
    | (c :: cs, col1) =>
      -- `char c = advance();` increments column
      let col2 := col1 + 1
      if isAlphaChar c || c = '_' then
        -- identifier(): greedy [alnum_]* after the first character
        let s := spanP (fun d => isAlnumChar d || d = '_') cs
        let text := c :: s.1
        let col3 := col2 + s.1.length
        let ttype := if text ∈ keywords then TokenType.KEYWORD else TokenType.IDENTIFIER
        ⟨ttype, text, line, col3 - text.length⟩ :: tokenizeLoop fuel s.2 line col3
      else if isDigitChar c then
        -- number(): greedy [digit.]* after the first character
        let s := spanP (fun d => isDigitChar d || d = '.') cs
        let text := c :: s.1
        let col3 := col2 + s.1.length
        ⟨.NUMBER, text, line, col3 - text.length⟩ :: tokenizeLoop fuel s.2 line col3
      else if c = '"' then
        let r := scanStr cs line col2
        match r.rest with
        | [] =>
          -- end of input inside the string: a STRING token with a sentinel
          -- message at the current (end-of-input) position; no error raised
          ⟨.STRING, "Unterminated string".toList, r.line, r.column⟩ ::
            tokenizeLoop fuel [] r.line r.column
        | _ :: cs2 =>
          -- advance() past the closing quote, then emit the contents
          let col3 := r.column + 1
          ⟨.STRING, r.contents, r.line, col3 - r.contents.length⟩ ::
            tokenizeLoop fuel cs2 r.line col3
      else if c = '\n' then
        -- Token(NEWLINE, "\\n", line++, column); column = 1
        ⟨.NEWLINE, ['\\', 'n'], line, col2⟩ :: tokenizeLoop fuel cs (line + 1) 1
      else
        -- Token(OPERATOR, string(1, c), line, column++)
        ⟨.OPERATOR, [c], line, col2⟩ :: tokenizeLoop fuel cs line (col2 + 1)

/-- `SimpleTokenizer::tokenize`: run the loop from line 1, column 1 and
always terminate with an EOF token. -/
def tokenize (source : List Char) : List Token :=
  tokenizeLoop (source.length + 1) source 1 1

end SimpleTokenizer

/- ===================================================================
   Generic association-list helpers.  Both `std::map<std::string, …>`
   fields of the code (the interpreter's `variables`, the environment's
   `variables`) are modelled as association lists over `List Char` keys:
   `assocFind` is `map::count`/`operator[]` lookup, `assocSet` is
   insert-or-overwrite (`map[k] = v`).
   =================================================================== -/

/-- Lookup in an association list (first matching key wins). -/
def assocFind {β : Type} : List (List Char × β) → List Char → Option β
  | [], _ => none
  | (k, v) :: rest, key => if k = key then some v else assocFind rest key

/-- Insert-or-overwrite in an association list, keeping key order stable. -/
def assocSet {β : Type} : List (List Char × β) → List Char → β → List (List Char × β)
  | [], key, v => [(key, v)]
  | (k, w) :: rest, key, v =>
    if k = key then (k, v) :: rest else (k, w) :: assocSet rest key v

/- ===================================================================
   Part 1b.  Embedding of the stub NexusInterpreter
   (src/Src/main.cpp, lines 147-255).  `variables` is the map from
   variable name to the stored token text; each `std::cout` statement of a
   handler is modelled as one output event.  `debugMode` is false
   (the default), so the debug block of `execute` is skipped.
   =================================================================== -/

namespace NexusInterpreter

open SimpleTokenizer

/-- One line of output of the stub interpreter: one constructor per
`std::cout … << std::endl` statement in the statement handlers. -/
inductive OutEvent where
  /-- "✓ Variable '<name>' = <value>" from handleVariableDeclaration. -/
  | varDecl (name value : List Char)
  /-- "🧠 Created model '<name>'" from handleModelDeclaration. -/
  | modelCreated (name : List Char)
  /-- "🚀 Training model '<name>'…" from handleTrainStatement. -/
  | trainStart (name : List Char)
  /-- "✅ Training completed!" from handleTrainStatement. -/
  | trainDone
  /-- the bare `std::cout << value << std::endl` of handlePrintStatement. -/
  | printed (value : List Char)
deriving DecidableEq, Repr

/-- The interpreter's `std::map<std::string, std::string> variables`. -/
abbrev Vars := List (List Char × List Char)

/-- Indexing `tokens[i]`; all uses are guarded by bounds checks in the
code, so the default is never observed. -/
def getTok (tokens : List Token) (i : Nat) : Token :=
  tokens.getD i ⟨.EOF_TOKEN, [], 0, 0⟩

/-- `handleVariableDeclaration`: when `i + 4 < size` and the token after
the name is `=`, store the single token after `=` as the variable's value
and step `i` by 4.  Returns (increment of i, variables, output). -/
def handleVariableDeclaration (tokens : List Token) (i : Nat) (vars : Vars) :
    Nat × Vars × List OutEvent :=
  if i + 4 < tokens.length ∧ (getTok tokens (i + 2)).value = ['='] then
    let varName := (getTok tokens (i + 1)).value
    let value := (getTok tokens (i + 3)).value
    (4, assocSet vars varName value, [.varDecl varName value])
  else (0, vars, [])

/-- `handleModelDeclaration`: report creation and step `i` by 2. -/
def handleModelDeclaration (tokens : List Token) (i : Nat) :
    Nat × List OutEvent :=
  if i + 2 < tokens.length then
    (2, [.modelCreated (getTok tokens (i + 1)).value])
  else (0, [])

/-- `handleTrainStatement`: report start and completion, step `i` by 1
(the `sleep_for` is timing only and has no modelled effect). -/
def handleTrainStatement (tokens : List Token) (i : Nat) :
    Nat × List OutEvent :=
  if i + 1 < tokens.length then
    (1, [.trainStart (getTok tokens (i + 1)).value, .trainDone])
  else (0, [])

/-- `handlePrintStatement`: print the text of the single token after
`print` — with surrounding quotes stripped when both ends are a quote, or
replaced by the stored value when it names a variable — and step `i` by 1.
(`value.front()` on an empty token text is undefined behaviour in the
C++; the quote test is modelled as false there, and no claim exercises
that case.) -/
def handlePrintStatement (tokens : List Token) (i : Nat) (vars : Vars) :
    Nat × List OutEvent :=
  if i + 1 < tokens.length then
    let v := (getTok tokens (i + 1)).value
    let v2 :=
      if v.head? = some '"' ∧ v.getLast? = some '"' then (v.drop 1).dropLast
      else
        match assocFind vars v with
        | some w => w
        | none => v
    (1, [.printed v2])
  else (0, [])

/-- One iteration body of the `for` loop of `executeTokens`: dispatch on
the token at `i` exactly as the keyword/identifier branches of the code
do.  Returns (increment applied to i by the handler, variables, output). -/
def execStep (tokens : List Token) (i : Nat) (vars : Vars) :
    Nat × Vars × List OutEvent :=
  let t := getTok tokens i
  if t.type = .KEYWORD then
    if t.value = "var".toList ∧ i + 2 < tokens.length then
      handleVariableDeclaration tokens i vars
    else if t.value = "model".toList then
      let r := handleModelDeclaration tokens i
      (r.1, vars, r.2)
    else if t.value = "train".toList then
      let r := handleTrainStatement tokens i
      (r.1, vars, r.2)
    else if t.value = "print".toList then
      let r := handlePrintStatement tokens i vars
      (r.1, vars, r.2)
    else (0, vars, [])
  else if t.type = .IDENTIFIER then
    if t.value = "print".toList ∧ i + 1 < tokens.length then
      let r := handlePrintStatement tokens i vars
      (r.1, vars, r.2)
    else (0, vars, [])
  else (0, vars, [])

/-- The `for (size_t i = 0; i < tokens.size(); ++i)` loop of
`executeTokens`.  Each iteration advances `i` by at least one, so the
fuel `tokens.length` used by `executeTokens` is sufficient. -/
def execLoop (tokens : List Token) : Nat → Nat → Vars → Vars × List OutEvent
  | 0, _, vars => (vars, [])
  | fuel + 1, i, vars =>
    if i < tokens.length then
      let r := execStep tokens i vars
      let next := execLoop tokens fuel (i + r.1 + 1) r.2.1
      (next.1, r.2.2 ++ next.2)
    else (vars, [])

/-- `NexusInterpreter::executeTokens`. -/
def executeTokens (tokens : List Token) (vars : Vars) : Vars × List OutEvent :=
  execLoop tokens tokens.length 0 vars

/-- `NexusInterpreter::execute`: an empty source returns at once —
before constructing a tokenizer and before touching `variables` — and
otherwise tokenizes and runs `executeTokens`. -/
def execute (vars : Vars) (source : List Char) : Vars × List OutEvent :=
  if source = [] then (vars, [])
  else executeTokens (tokenize source) vars

end NexusInterpreter

/- ===================================================================
   Part 2a.  The dynamic value model.

   Modelled from the spec: `value.h` declares the `Value` variant —
   nil / boolean / number / string / array (inline `std::vector<Value>`) /
   object (inline `std::map<std::string, Value>`) / function
   (`shared_ptr<Callable>`) / tensor (`shared_ptr<Tensor>`) — but
   `value.cpp` with the member definitions is not in the repository.
   Numbers (C++ IEEE-754 doubles) are modelled as rationals, since
   bit-level floating point is outside this shallow embedding; a function
   is modelled by its observable descriptor (name and arity); a tensor
   payload is its shape and flat data.  Object properties are kept as an
   ordered association list (the spec requires a stable iteration
   order). -/

inductive SValue where
  | nil
  | boolean (b : Bool)
  | number (q : ℚ)
  | str (s : List Char)
  | array (elems : List SValue)
  | object (props : List (List Char × SValue))
  | func (name : List Char) (arity : Nat)
  | tensor (shape : List Nat) (data : List ℚ)

/- ===================================================================
   Part 2b.  Serialization (claim C8).

   Modelled from the spec: `Value::serialize`/`Value::deserialize` are
   declared in value.h with no definition in the repository.  The spec
   fixes only the contract — "a stable textual encoding sufficient to
   round-trip every variant except Function (functions are not
   serializable; attempting to do so fails)" — so a concrete stable
   textual encoding is chosen here: every value starts with a one-letter
   tag, naturals are decimal, strings are length-prefixed, sequences are
   count-prefixed.  `serialize` returns `none` exactly when the value
   contains a function anywhere. -/

/-- Decimal digit to character. -/
def digitChar (d : Nat) : Char := Char.ofNat (48 + d)

/-- Character to decimal digit value. -/
def digitVal (c : Char) : Nat := c.toNat - 48

/-- Decimal notation of a natural number (most significant digit first). -/
def toDec (n : Nat) : List Char :=
  if _h : n < 10 then [digitChar n]
  else toDec (n / 10) ++ [digitChar (n % 10)]
decreasing_by exact Nat.div_lt_self (by omega) (by omega)

/-- Encoding of an integer: optional minus sign, then decimal digits. -/
def encInt (i : Int) : List Char :=
  if i < 0 then '-' :: toDec i.natAbs else toDec i.natAbs

/-- Encoding of a rational: numerator, slash, denominator, semicolon. -/
def encRat (q : ℚ) : List Char :=
  encInt q.num ++ '/' :: (toDec q.den ++ [';'])

/-- Encoding of a string: decimal length, colon, the raw characters. -/
def encStr (s : List Char) : List Char :=
  toDec s.length ++ ':' :: s

/-- Encoding of the items of a list of naturals, each followed by a
semicolon. -/
def encNatItems : List Nat → List Char
  | [] => []
  | n :: ns => toDec n ++ ';' :: encNatItems ns

/-- Encoding of a list of naturals: decimal count, colon, items. -/
def encNatList (l : List Nat) : List Char :=
  toDec l.length ++ ':' :: encNatItems l

/-- Encoding of the items of a list of rationals. -/
def encRatItems : List ℚ → List Char
  | [] => []
  | q :: qs => encRat q ++ encRatItems qs

/-- Encoding of a list of rationals: decimal count, colon, items. -/
def encRatList (l : List ℚ) : List Char :=
  toDec l.length ++ ':' :: encRatItems l

mutual

/-- Encoder for one value; `none` exactly when a function occurs inside. -/
def encVal : SValue → Option (List Char)
  | .nil => some ['z']
  | .boolean true => some ['t']
  | .boolean false => some ['f']
  | .number q => some ('n' :: encRat q)
  | .str s => some ('s' :: encStr s)
  | .array l =>
    match encItems l with
    | some e => some ('a' :: (toDec l.length ++ ':' :: e))
    | none => none
  | .object l =>
    match encProps l with
    | some e => some ('o' :: (toDec l.length ++ ':' :: e))
    | none => none
  | .func _ _ => none
  | .tensor shape data => some ('T' :: (encNatList shape ++ encRatList data))

/-- Encoder for the elements of an array, concatenated. -/
def encItems : List SValue → Option (List Char)
  | [] => some []
  | v :: vs =>
    match encVal v, encItems vs with
    | some e, some es => some (e ++ es)
    | _, _ => none

/-- Encoder for object properties: encoded key string, then value. -/
def encProps : List (List Char × SValue) → Option (List Char)
  | [] => some []
  | (k, v) :: ps =>
    match encVal v, encProps ps with
    | some e, some es => some (encStr k ++ (e ++ es))
    | _, _ => none

end

/-- `Value::serialize`, on the modelled value type. -/
def SValue.serialize (v : SValue) : Option (List Char) := encVal v

/-- Greedy decimal accumulator (`acc` is the value of the digits already
consumed). -/
def parseNatAux (acc : Nat) : List Char → Nat × List Char
  | [] => (acc, [])
  | c :: cs =>
    if SimpleTokenizer.isDigitChar c then parseNatAux (acc * 10 + digitVal c) cs
    else (acc, c :: cs)

/-- Parse a decimal natural (at least one digit). -/
def parseNat : List Char → Option (Nat × List Char)
  | [] => none
  | c :: cs =>
    if SimpleTokenizer.isDigitChar c then some (parseNatAux (digitVal c) cs)
    else none

/-- Consume one expected character. -/
def expectChar (t : Char) : List Char → Option (List Char)
  | [] => none
  | c :: cs => if c = t then some cs else none

/-- Parse an integer: optional minus sign, then a decimal natural. -/
def parseInt (input : List Char) : Option (Int × List Char) :=
  match input with
  | '-' :: cs => (parseNat cs).map fun r => (-(r.1 : Int), r.2)
  | _ => (parseNat input).map fun r => ((r.1 : Int), r.2)

/-- Parse a rational encoded by `encRat`. -/
def parseRat (input : List Char) : Option (ℚ × List Char) :=
  match parseInt input with
  | some (num, r1) =>
    match expectChar '/' r1 with
    | some r2 =>
      match parseNat r2 with
      | some (den, r3) =>
        match expectChar ';' r3 with
        | some r4 => some ((num : ℚ) / (den : ℚ), r4)
        | none => none
      | none => none
    | none => none
  | none => none

/-- Take exactly `n` characters. -/
def parseChars (n : Nat) (input : List Char) : Option (List Char × List Char) :=
  if n ≤ input.length then some (input.take n, input.drop n) else none

/-- Parse a length-prefixed string encoded by `encStr`. -/
def parseLenStr (input : List Char) : Option (List Char × List Char) :=
  match parseNat input with
  | some (len, r1) =>
    match expectChar ':' r1 with
    | some r2 => parseChars len r2
    | none => none
  | none => none

/-- Parse `n` semicolon-terminated naturals. -/
def parseNatItems : Nat → List Char → Option (List Nat × List Char)
  | 0, input => some ([], input)
  | n + 1, input =>
    match parseNat input with
    | some (m, r1) =>
      match expectChar ';' r1 with
      | some r2 =>
        match parseNatItems n r2 with
        | some (ms, r3) => some (m :: ms, r3)
        | none => none
      | none => none
    | none => none

/-- Parse a count-prefixed list of naturals encoded by `encNatList`. -/
def parseNatList (input : List Char) : Option (List Nat × List Char) :=
  match parseNat input with
  | some (len, r1) =>
    match expectChar ':' r1 with
    | some r2 => parseNatItems len r2
    | none => none
  | none => none

/-- Parse `n` rationals encoded by `encRat`. -/
def parseRatItems : Nat → List Char → Option (List ℚ × List Char)
  | 0, input => some ([], input)
  | n + 1, input =>
    match parseRat input with
    | some (q, r1) =>
      match parseRatItems n r1 with
      | some (qs, r2) => some (q :: qs, r2)
      | none => none
    | none => none

/-- Parse a count-prefixed list of rationals encoded by `encRatList`. -/
def parseRatList (input : List Char) : Option (List ℚ × List Char) :=
  match parseNat input with
  | some (len, r1) =>
    match expectChar ':' r1 with
    | some r2 => parseRatItems len r2
    | none => none
  | none => none

mutual

/-- Parser for one encoded value.  The fuel bounds the nesting depth of
arrays/objects; `SValue.deserialize` supplies `input.length + 1`, which
suffices because every nesting level consumes at least one character. -/
def parseVal : Nat → List Char → Option (SValue × List Char)
  | 0, _ => none
  | fuel + 1, input =>
    match input with
    | [] => none
    | c :: cs =>
      if c = 'z' then some (.nil, cs)
      else if c = 't' then some (.boolean true, cs)
      else if c = 'f' then some (.boolean false, cs)
      else if c = 'n' then
        match parseRat cs with
        | some (q, r) => some (.number q, r)
        | none => none
      else if c = 's' then
        match parseLenStr cs with
        | some (s, r) => some (.str s, r)
        | none => none
      else if c = 'a' then
        match parseNat cs with
        | some (len, r1) =>
          match expectChar ':' r1 with
          | some r2 =>
            match parseItems fuel len r2 with
            | some (vs, r3) => some (.array vs, r3)
            | none => none
          | none => none
        | none => none
      else if c = 'o' then
        match parseNat cs with
        | some (len, r1) =>
          match expectChar ':' r1 with
          | some r2 =>
            match parsePropsN fuel len r2 with
            | some (ps, r3) => some (.object ps, r3)
            | none => none
          | none => none
        | none => none
      else if c = 'T' then
        match parseNatList cs with
        | some (shape, r1) =>
          match parseRatList r1 with
          | some (d, r2) => some (.tensor shape d, r2)
          | none => none
        | none => none
      else none
termination_by fuel _ => (fuel, 0)

/-- Parser for `n` consecutive encoded array elements. -/
def parseItems : Nat → Nat → List Char → Option (List SValue × List Char)
  | _, 0, input => some ([], input)
  | fuel, n + 1, input =>
    match parseVal fuel input with
    | some (v, r) =>
      match parseItems fuel n r with
      | some (vs, r2) => some (v :: vs, r2)
      | none => none
    | none => none
termination_by fuel n _ => (fuel, n + 1)

/-- Parser for `n` consecutive encoded object properties. -/
def parsePropsN : Nat → Nat → List Char → Option (List (List Char × SValue) × List Char)
  | _, 0, input => some ([], input)
  | fuel, n + 1, input =>
    match parseLenStr input with
    | some (k, r1) =>
      match parseVal fuel r1 with
      | some (v, r2) =>
        match parsePropsN fuel n r2 with
        | some (ps, r3) => some ((k, v) :: ps, r3)
        | none => none
      | none => none
    | none => none
termination_by fuel n _ => (fuel, n + 1)

end

/-- `Value::deserialize`, on the modelled value type: the whole input must
encode a single value. -/
def SValue.deserialize (input : List Char) : Option SValue :=
  match parseVal (input.length + 1) input with
  | some (v, []) => some v
  | _ => none

mutual

/-- Nesting height of a value (arrays/objects add one level).  Used to
show the parser fuel supplied by `SValue.deserialize` is sufficient. -/
def vheight : SValue → Nat
  | .nil => 1
  | .boolean _ => 1
  | .number _ => 1
  | .str _ => 1
  | .array l => vheightItems l + 1
  | .object l => vheightProps l + 1
  | .func _ _ => 1
  | .tensor _ _ => 1

def vheightItems : List SValue → Nat
  | [] => 0
  | v :: vs => max (vheight v) (vheightItems vs)

def vheightProps : List (List Char × SValue) → Nat
  | [] => 0
  | p :: ps => max (vheight p.2) (vheightProps ps)

end

mutual

/-- A value is serializable exactly when no function occurs inside it
(the spec: every variant except Function round-trips; serializing a
function fails). -/
def serializableB : SValue → Bool
  | .nil => true
  | .boolean _ => true
  | .number _ => true
  | .str _ => true
  | .array l => serializableItems l
  | .object l => serializablePropsB l
  | .func _ _ => false
  | .tensor _ _ => true

def serializableItems : List SValue → Bool
  | [] => true
  | v :: vs => serializableB v && serializableItems vs

def serializablePropsB : List (List Char × SValue) → Bool
  | [] => true
  | p :: ps => serializableB p.2 && serializablePropsB ps

end

/- ===================================================================
   Part 2c.  The lexical environment chain (claims C3, C4's first part).

   Modelled from the spec: the `Environment` class (variables map, parent
   link, constants set) is declared in the repository's environment
   header, but `environment.cpp` with the method bodies is not in the
   repository.  §4.3 of the spec fixes the behaviour: `define` inserts
   into the current scope (redefinition over a constant of the same scope
   fails); `get` walks outward and reaches `NameError` when no scope
   defines the name; `assign` walks outward to the nearest scope already
   defining the name, fails with `ConstAssignError` on a constant binding
   and `NameError` when the name is undefined everywhere.  A chain is a
   nonempty-by-use list of scopes, innermost (current) first, root last;
   each scope maps a name to its value together with its constant flag
   (the header's `constants` set). -/

/-- One binding: the stored value and whether the name was declared
constant in its scope. -/
structure Binding where
  value : SValue
  isConst : Bool

/-- One scope: ordered name-to-binding map. -/
abbrev Scope := List (List Char × Binding)

/-- The parent-linked chain, current scope first. -/
abbrev Env := List Scope

/-- Environment failures of the spec's taxonomy that the environment
operations can raise. -/
inductive EnvError where
  | NameError
  | ConstAssignError
  | ConstRedefineError
deriving DecidableEq, Repr

/-- `Environment::define(name, value, isConstant)`: insert into the
current scope, shadowing outer bindings; redefining a name declared
constant in this same scope fails.  (An `Environment` always has a
current scope; the empty chain, unreachable from the interpreter, reports
`NameError`.) -/
def Environment.define (env : Env) (name : List Char) (v : SValue)
    (isConstant : Bool) : Except EnvError Env :=
  match env with
  | [] => .error .NameError
  | s :: parents =>
    match assocFind s name with
    | some b =>
      if b.isConst then .error .ConstRedefineError
      else .ok (assocSet s name ⟨v, isConstant⟩ :: parents)
    | none => .ok (assocSet s name ⟨v, isConstant⟩ :: parents)

/-- `Environment::defineConstant`. -/
def Environment.defineConstant (env : Env) (name : List Char) (v : SValue) :
    Except EnvError Env :=
  Environment.define env name v true

/-- `Environment::get`: walk outward from the current scope; the first
scope containing the name wins; otherwise `NameError`. -/
def Environment.get : Env → List Char → Except EnvError SValue
  | [], _ => .error .NameError
  | s :: parents, name =>
    match assocFind s name with
    | some b => .ok b.value
    | none => Environment.get parents name

/-- `Environment::assign`: walk outward to the nearest scope that already
defines the name; a constant binding raises `ConstAssignError`; an
undefined name raises `NameError`.  No new binding is ever created. -/
def Environment.assign : Env → List Char → SValue → Except EnvError Env
  | [], _, _ => .error .NameError
  | s :: parents, name, v =>
    match assocFind s name with
    | some b =>
      if b.isConst then .error .ConstAssignError
      else .ok (assocSet s name ⟨v, false⟩ :: parents)
    | none =>
      match Environment.assign parents name v with
      | .ok parents2 => .ok (s :: parents2)
      | .error e => .error e

/- ===================================================================
   Part 2d.  The tensor payload (claims C6, C7).

   Modelled from the spec: `value.h` declares class `Tensor` (flat
   `std::vector<double> data`, `std::vector<size_t> shape`, cached
   `totalSize`) with constructors, element-wise arithmetic, `matmul`,
   `transpose` ("Matrix transpose") and `reshape`, but no member
   definition is in the repository.  The spec requires: flat length always
   equals the product of the shape (§3), shape non-empty with positive
   dimensions at construction (§4.2), element-wise arithmetic over
   identical shapes with a shape-mismatch failure otherwise, and
   `transpose`/`reshape` returning new tensors.  Data is stored row-major
   (the spec's end-to-end example: `[[1,2],[3,4]]` transposed has flat
   elements `[1,3,2,4]`). -/

structure Tensor where
  shape : List Nat
  data : List ℚ
deriving DecidableEq, Repr

/-- The invariant of §3: flat length equals the product of the shape. -/
def Tensor.valid (t : Tensor) : Prop := t.data.length = t.shape.prod

/-- Shape-related failure of tensor operations. -/
inductive TensorError where
  | ShapeError
deriving DecidableEq, Repr

/-- Construction from a shape (zero-filled), validating that the shape is
non-empty with all dimensions positive. -/
def Tensor.make (shape : List Nat) : Option Tensor :=
  if shape ≠ [] ∧ ∀ d ∈ shape, 0 < d then
    some ⟨shape, List.replicate shape.prod 0⟩
  else none

/-- Construction from a shape and flat data, validating the length
invariant. -/
def Tensor.fromData (shape : List Nat) (data : List ℚ) : Option Tensor :=
  if shape ≠ [] ∧ (∀ d ∈ shape, 0 < d) ∧ data.length = shape.prod then
    some ⟨shape, data⟩
  else none

/-- Element-wise combination; identical shapes required, shape-mismatch
failure otherwise.  `+ - * /` are all instances. -/
def Tensor.ewise (f : ℚ → ℚ → ℚ) (a b : Tensor) : Except TensorError Tensor :=
  if a.shape = b.shape then .ok ⟨a.shape, List.zipWith f a.data b.data⟩
  else .error .ShapeError

/-- Matrix multiplication of two 2-D tensors with matching inner
dimension. -/
def Tensor.matmul (a b : Tensor) : Except TensorError Tensor :=
  match a.shape, b.shape with
  | [m, k], [k2, n] =>
    if k = k2 then
      .ok ⟨[m, n], (List.range (m * n)).map fun idx =>
        (((List.range k).map fun t =>
          a.data.getD (idx / n * k + t) 0 * b.data.getD (t * n + idx % n) 0).sum)⟩
    else .error .ShapeError
  | _, _ => .error .ShapeError

/-- Matrix transpose of a 2-D tensor: shape `[r, c]` becomes `[c, r]` and
entry `(i, j)` moves to `(j, i)` in row-major order. -/
def Tensor.transpose (a : Tensor) : Except TensorError Tensor :=
  match a.shape with
  | [r, c] =>
    .ok ⟨[c, r], (List.range (c * r)).map fun k => a.data.getD (k % r * c + k / r) 0⟩
  | _ => .error .ShapeError

/-- Reshape to a new shape, validating that the new shape is non-empty
with positive dimensions and that its product matches the flat length. -/
def Tensor.reshape (a : Tensor) (newShape : List Nat) : Except TensorError Tensor :=
  if newShape ≠ [] ∧ (∀ d ∈ newShape, 0 < d) ∧ newShape.prod = a.data.length then
    .ok ⟨newShape, a.data⟩
  else .error .ShapeError

/- ===================================================================
   Part 2e.  Variant-dependent copy semantics (claim C9).

   Modelled from the spec and from the variant declared in `value.h`
   (the copy constructor/assignment bodies are not in the repository):
   an Array/Object payload lives inline in the `std::variant`, so copying
   a Value copies the contents; a Function/Tensor payload is a
   `shared_ptr`, so copying a Value copies only the reference and both
   copies point at one allocation.  The shared allocations are made
   explicit as a heap of tensor buffers; a value holds either inline
   contents or the id of a heap cell, and variable assignment copies the
   value — which, by construction, duplicates inline contents and shares
   heap ids, exactly the C++ `std::variant` copy. -/

/-- The heap of shared tensor allocations (cell id is the address of the
`shared_ptr` target). -/
structure TensorHeap where
  cells : List (List ℚ)
deriving DecidableEq, Repr

/-- A runtime value for the copy-semantics model: arrays hold their
elements inline, tensors hold a heap cell id. -/
inductive RValue where
  | number (q : ℚ)
  | strv (s : List Char)
  | array (elems : List RValue)
  | tensorRef (id : Nat)

/-- The interpreter's variable map for the copy-semantics model. -/
abbrev RVars := List (List Char × RValue)

/-- Assignment `dst = src` between variables: copy the `Value` by the
variant copy — contents for arrays, the shared id for tensors. -/
def copyAssign (env : RVars) (dst src : List Char) : RVars :=
  match assocFind env src with
  | some v => assocSet env dst v
  | none => env

/-- Mutation of one array slot of a Value (`v[i] = w` on an Array):
operates on that Value's own inline contents. -/
def setElem : RValue → Nat → RValue → RValue
  | .array l, i, w => .array (l.set i w)
  | v, _, _ => v

/-- Mutate the array element `i` of the value bound to `name`. -/
def mutateArrayElem (env : RVars) (name : List Char) (i : Nat) (w : RValue) : RVars :=
  match assocFind env name with
  | some v => assocSet env name (setElem v i w)
  | none => env

/-- In-place `Tensor::fill` on a heap cell: every element of the shared
allocation becomes `x`. -/
def TensorHeap.fill (h : TensorHeap) (id : Nat) (x : ℚ) : TensorHeap :=
  ⟨h.cells.set id (List.replicate (h.cells.getD id []).length x)⟩

/-- Run `fill` through whatever tensor the variable `name` refers to. -/
def mutateTensorFill (h : TensorHeap) (env : RVars) (name : List Char) (x : ℚ) :
    TensorHeap :=
  match assocFind env name with
  | some (.tensorRef id) => h.fill id x
  | _ => h

/-- The tensor data observed by reading the variable `name`: dereference
its shared allocation. -/
def readTensorData (h : TensorHeap) (env : RVars) (name : List Char) :
    Option (List ℚ) :=
  match assocFind env name with
  | some (.tensorRef id) => some (h.cells.getD id [])
  | _ => none

/- ===================================================================
   Part 2f.  Auxiliary definitions used only by the proofs.
   =================================================================== -/

/-- Value accumulated by `parseNatAux` over a digit string. -/
def digitsVal (acc : Nat) : List Char → Nat
  | [] => acc
  | c :: cs => digitsVal (acc * 10 + digitVal c) cs

/-- Whether the input begins with a decimal digit (the greedy number
parser continues exactly when this holds). -/
def headIsDigit : List Char → Bool
  | [] => false
  | c :: _ => SimpleTokenizer.isDigitChar c

/- ===================================================================
   Part 3.  Helper lemmas.
   =================================================================== -/

theorem digitChar_isDigit {n : Nat} (h : n < 10) :
    SimpleTokenizer.isDigitChar (digitChar n) = true := by
  interval_cases n <;> decide

theorem digitVal_digitChar {n : Nat} (h : n < 10) : digitVal (digitChar n) = n := by
  interval_cases n <;> decide

theorem toDec_all_digits (n : Nat) :
    ∀ c ∈ toDec n, SimpleTokenizer.isDigitChar c = true := by
  induction n using Nat.strong_induction_on with
  | _ n ih =>
      rw [toDec]
      split
      next h =>
        intro c hc
        simp only [List.mem_singleton] at hc
        subst hc
        exact digitChar_isDigit h
      next h =>
        intro c hc
        rw [List.mem_append] at hc
        rcases hc with hc | hc
        · exact ih (n / 10) (Nat.div_lt_self (by omega) (by omega)) c hc
        · simp only [List.mem_singleton] at hc
          subst hc
          exact digitChar_isDigit (Nat.mod_lt _ (by omega))

theorem toDec_ne_nil (n : Nat) : toDec n ≠ [] := by
  rw [toDec]; split <;> simp

theorem digitsVal_append (xs : List Char) (c : Char) : ∀ acc : Nat,
    digitsVal acc (xs ++ [c]) = digitsVal acc xs * 10 + digitVal c := by
  induction xs with
  | nil => intro acc; rfl
  | cons d ds ih =>
      intro acc
      rw [List.cons_append]
      rw [show digitsVal acc (d :: (ds ++ [c])) =
        digitsVal (acc * 10 + digitVal d) (ds ++ [c]) from rfl]
      rw [ih]
      rfl

theorem digitsVal_toDec (n : Nat) : digitsVal 0 (toDec n) = n := by
  induction n using Nat.strong_induction_on with
  | _ n ih =>
      rw [toDec]
      split
      next h =>
        rw [show digitsVal 0 [digitChar n] = 0 * 10 + digitVal (digitChar n) from rfl,
          digitVal_digitChar h]
        omega
      next h =>
        rw [digitsVal_append, ih (n / 10) (Nat.div_lt_self (by omega) (by omega)),
          digitVal_digitChar (Nat.mod_lt _ (by omega))]
        omega

theorem parseNatAux_digits (ds : List Char) : ∀ (acc : Nat) (rest : List Char),
    (∀ c ∈ ds, SimpleTokenizer.isDigitChar c = true) →
    headIsDigit rest = false →
    parseNatAux acc (ds ++ rest) = (digitsVal acc ds, rest) := by
  induction ds with
  | nil =>
      intro acc rest _ hrest
      cases rest with
      | nil => rfl
      | cons c cs =>
          simp only [headIsDigit] at hrest
          rw [List.nil_append]
          rw [show parseNatAux acc (c :: cs) =
            (if SimpleTokenizer.isDigitChar c then parseNatAux (acc * 10 + digitVal c) cs
             else (acc, c :: cs)) from rfl]
          rw [hrest]
          rfl
  | cons d ds ih =>
      intro acc rest hds hrest
      have hd : SimpleTokenizer.isDigitChar d = true := hds d (by simp)
      rw [List.cons_append]
      rw [show parseNatAux acc (d :: (ds ++ rest)) =
        (if SimpleTokenizer.isDigitChar d then parseNatAux (acc * 10 + digitVal d) (ds ++ rest)
         else (acc, d :: (ds ++ rest))) from rfl]
      rw [hd]
      rw [ih _ rest (fun c hc => hds c (by simp [hc])) hrest]
      rfl

theorem parseNat_toDec (n : Nat) (rest : List Char)
    (hrest : headIsDigit rest = false) :
    parseNat (toDec n ++ rest) = some (n, rest) := by
  obtain ⟨c, cs, hc⟩ : ∃ c cs, toDec n = c :: cs := by
    cases h : toDec n with
    | nil => exact absurd h (toDec_ne_nil n)
    | cons c cs => exact ⟨c, cs, rfl⟩
  have hdig := toDec_all_digits n
  rw [hc] at hdig
  have hcd : SimpleTokenizer.isDigitChar c = true := hdig c (by simp)
  rw [hc, List.cons_append]
  rw [show parseNat (c :: (cs ++ rest)) =
    (if SimpleTokenizer.isDigitChar c then some (parseNatAux (digitVal c) (cs ++ rest))
     else none) from rfl]
  rw [if_pos hcd]
  rw [parseNatAux_digits cs (digitVal c) rest (fun x hx => hdig x (by simp [hx])) hrest]
  have h0 : digitsVal 0 (c :: cs) = n := by rw [← hc]; exact digitsVal_toDec n
  rw [show digitsVal 0 (c :: cs) = digitsVal (0 * 10 + digitVal c) cs from rfl] at h0
  rw [show (0 : Nat) * 10 + digitVal c = digitVal c from by omega] at h0
  rw [h0]

theorem headIsDigit_toDec_append (n : Nat) (rest : List Char) :
    headIsDigit (toDec n ++ rest) = true := by
  obtain ⟨c, cs, hc⟩ : ∃ c cs, toDec n = c :: cs := by
    cases h : toDec n with
    | nil => exact absurd h (toDec_ne_nil n)
    | cons c cs => exact ⟨c, cs, rfl⟩
  rw [hc]
  simp only [List.cons_append, headIsDigit]
  exact toDec_all_digits n c (by rw [hc]; simp)

theorem parseInt_encInt (i : Int) (rest : List Char)
    (hrest : headIsDigit rest = false) :
    parseInt (encInt i ++ rest) = some (i, rest) := by
  by_cases h : i < 0
  · simp only [encInt, if_pos h, List.cons_append]
    have hstep : parseInt ('-' :: (toDec i.natAbs ++ rest)) =
        (parseNat (toDec i.natAbs ++ rest)).map fun r => (-(r.1 : Int), r.2) := rfl
    rw [hstep, parseNat_toDec i.natAbs rest hrest]
    simp only [Option.map_some']
    have : -(i.natAbs : Int) = i := by omega
    rw [this]
  · simp only [encInt, if_neg h]
    obtain ⟨c, cs, hc⟩ : ∃ c cs, toDec i.natAbs = c :: cs := by
      cases hh : toDec i.natAbs with
      | nil => exact absurd hh (toDec_ne_nil _)
      | cons c cs => exact ⟨c, cs, rfl⟩
    have hcd : SimpleTokenizer.isDigitChar c = true := by
      exact toDec_all_digits i.natAbs c (by rw [hc]; simp)
    have hcm : c ≠ '-' := by
      intro he
      rw [he] at hcd
      exact absurd hcd (by decide)
    rw [hc, List.cons_append, parseInt.eq_def]
    split
    next cs2 heq =>
      rw [List.cons.injEq] at heq
      exact absurd heq.1 hcm
    next hne =>
      rw [← List.cons_append, ← hc, parseNat_toDec i.natAbs rest hrest]
      simp only [Option.map_some']
      have : (i.natAbs : Int) = i := by omega
      rw [this]

theorem expectChar_cons (t : Char) (rest : List Char) :
    expectChar t (t :: rest) = some rest := by
  simp [expectChar]

theorem parseRat_encRat (q : ℚ) (rest : List Char) :
    parseRat (encRat q ++ rest) = some (q, rest) := by
  have hassoc : encRat q ++ rest =
      encInt q.num ++ ('/' :: (toDec q.den ++ (';' :: rest))) := by
    simp [encRat, List.append_assoc]
  rw [hassoc]
  simp only [parseRat,
    parseInt_encInt q.num ('/' :: (toDec q.den ++ (';' :: rest))) (by rfl),
    expectChar_cons, parseNat_toDec q.den (';' :: rest) (by rfl)]
  rw [Rat.num_div_den]

theorem parseChars_exact (s rest : List Char) :
    parseChars s.length (s ++ rest) = some (s, rest) := by
  have hle : s.length ≤ (s ++ rest).length := by
    simp [List.length_append]
  simp [parseChars, hle, List.take_left, List.drop_left]

theorem parseLenStr_encStr (s rest : List Char) :
    parseLenStr (encStr s ++ rest) = some (s, rest) := by
  have hassoc : encStr s ++ rest = toDec s.length ++ (':' :: (s ++ rest)) := by
    simp [encStr]
  rw [hassoc]
  simp only [parseLenStr, parseNat_toDec s.length (':' :: (s ++ rest)) (by rfl),
    expectChar_cons]
  exact parseChars_exact s rest

theorem parseNatItems_enc (l : List Nat) : ∀ rest : List Char,
    parseNatItems l.length (encNatItems l ++ rest) = some (l, rest) := by
  induction l with
  | nil => intro rest; rfl
  | cons m ms ih =>
      intro rest
      have hassoc : encNatItems (m :: ms) ++ rest =
          toDec m ++ (';' :: (encNatItems ms ++ rest)) := by
        simp [encNatItems]
      rw [List.length_cons, hassoc]
      simp only [parseNatItems,
        parseNat_toDec m (';' :: (encNatItems ms ++ rest)) (by rfl),
        expectChar_cons, ih rest]

theorem parseNatList_enc (l : List Nat) (rest : List Char) :
    parseNatList (encNatList l ++ rest) = some (l, rest) := by
  have hassoc : encNatList l ++ rest =
      toDec l.length ++ (':' :: (encNatItems l ++ rest)) := by
    simp [encNatList]
  rw [hassoc]
  simp only [parseNatList,
    parseNat_toDec l.length (':' :: (encNatItems l ++ rest)) (by rfl),
    expectChar_cons, parseNatItems_enc l rest]

theorem parseRatItems_enc (l : List ℚ) : ∀ rest : List Char,
    parseRatItems l.length (encRatItems l ++ rest) = some (l, rest) := by
  induction l with
  | nil => intro rest; rfl
  | cons q qs ih =>
      intro rest
      have hassoc : encRatItems (q :: qs) ++ rest =
          encRat q ++ (encRatItems qs ++ rest) := by
        simp [encRatItems]
      rw [List.length_cons, hassoc]
      simp only [parseRatItems, parseRat_encRat q (encRatItems qs ++ rest), ih rest]

theorem parseRatList_enc (l : List ℚ) (rest : List Char) :
    parseRatList (encRatList l ++ rest) = some (l, rest) := by
  have hassoc : encRatList l ++ rest =
      toDec l.length ++ (':' :: (encRatItems l ++ rest)) := by
    simp [encRatList]
  rw [hassoc]
  simp only [parseRatList,
    parseNat_toDec l.length (':' :: (encRatItems l ++ rest)) (by rfl),
    expectChar_cons, parseRatItems_enc l rest]

theorem vheight_pos (v : SValue) : 1 ≤ vheight v := by
  cases v <;> simp [vheight]

theorem vheightItems_mem (l : List SValue) (v : SValue) (hv : v ∈ l) :
    vheight v ≤ vheightItems l := by
  induction l with
  | nil => cases hv
  | cons w ws ih =>
      rcases List.mem_cons.mp hv with h | h
      · subst h
        simp only [vheightItems]
        exact le_max_left _ _
      · simp only [vheightItems]
        exact le_trans (ih h) (le_max_right _ _)

theorem vheightProps_mem (l : List (List Char × SValue))
    (p : List Char × SValue) (hp : p ∈ l) : vheight p.2 ≤ vheightProps l := by
  induction l with
  | nil => cases hp
  | cons w ws ih =>
      rcases List.mem_cons.mp hp with h | h
      · subst h
        simp only [vheightProps]
        exact le_max_left _ _
      · simp only [vheightProps]
        exact le_trans (ih h) (le_max_right _ _)

theorem vheightItems_le (l : List SValue) (m : Nat)
    (h : ∀ v ∈ l, vheight v ≤ m) : vheightItems l ≤ m := by
  induction l with
  | nil => simp [vheightItems]
  | cons w ws ih =>
      simp only [vheightItems, Nat.max_le]
      exact ⟨h w (by simp), ih (fun v hv => h v (by simp [hv]))⟩

theorem vheightProps_le (l : List (List Char × SValue)) (m : Nat)
    (h : ∀ p ∈ l, vheight p.2 ≤ m) : vheightProps l ≤ m := by
  induction l with
  | nil => simp [vheightProps]
  | cons w ws ih =>
      simp only [vheightProps, Nat.max_le]
      exact ⟨h w (by simp), ih (fun p hp => h p (by simp [hp]))⟩

theorem toDec_length_pos (n : Nat) : 0 < (toDec n).length :=
  List.length_pos.mpr (toDec_ne_nil n)

theorem encItems_mem (l : List SValue) : ∀ e : List Char, encItems l = some e →
    ∀ v ∈ l, ∃ e2, encVal v = some e2 ∧ e2.length ≤ e.length := by
  induction l with
  | nil => intro e _ v hv; cases hv
  | cons w ws ih =>
      intro e he v hv
      cases hw : encVal w with
      | none => simp [encItems, hw] at he
      | some e1 =>
          cases hws : encItems ws with
          | none => simp [encItems, hw, hws] at he
          | some es =>
              simp only [encItems, hw, hws, Option.some.injEq] at he
              subst he
              rcases List.mem_cons.mp hv with h | h
              · subst h
                exact ⟨e1, hw, by simp⟩
              · obtain ⟨e2, h1, h2⟩ := ih es hws v h
                refine ⟨e2, h1, ?_⟩
                simp only [List.length_append]
                omega

theorem encProps_mem (l : List (List Char × SValue)) : ∀ e : List Char,
    encProps l = some e →
    ∀ p ∈ l, ∃ e2, encVal p.2 = some e2 ∧ e2.length ≤ e.length := by
  induction l with
  | nil => intro e _ p hp; cases hp
  | cons w ws ih =>
      obtain ⟨k, v0⟩ := w
      intro e he p hp
      cases hw : encVal v0 with
      | none => simp [encProps, hw] at he
      | some e1 =>
          cases hws : encProps ws with
          | none => simp [encProps, hw, hws] at he
          | some es =>
              simp only [encProps, hw, hws, Option.some.injEq] at he
              subst he
              rcases List.mem_cons.mp hp with h | h
              · subst h
                refine ⟨e1, hw, ?_⟩
                simp only [List.length_append]
                omega
              · obtain ⟨e2, h1, h2⟩ := ih es hws p h
                refine ⟨e2, h1, ?_⟩
                simp only [List.length_append]
                omega

theorem vheight_le_encVal : ∀ (N : Nat) (v : SValue) (e : List Char),
    e.length ≤ N → encVal v = some e → vheight v ≤ e.length := by
  intro N
  induction N using Nat.strong_induction_on with
  | _ N ih =>
      intro v e hN he
      cases v with
      | nil =>
          simp only [encVal, Option.some.injEq] at he
          subst he
          simp [vheight]
      | boolean b =>
          cases b <;>
            (simp only [encVal, Option.some.injEq] at he
             subst he
             simp [vheight])
      | number q =>
          simp only [encVal, Option.some.injEq] at he
          subst he
          simp [vheight]
      | str s =>
          simp only [encVal, Option.some.injEq] at he
          subst he
          simp [vheight]
      | func nm ar => simp [encVal] at he
      | tensor sh d =>
          simp only [encVal, Option.some.injEq] at he
          subst he
          simp [vheight]
      | array l =>
          cases hE : encItems l with
          | none => simp [encVal, hE] at he
          | some ei =>
              simp only [encVal, hE, Option.some.injEq] at he
              subst he
              have hlen : ('a' :: (toDec l.length ++ ':' :: ei)).length =
                  (toDec l.length).length + ei.length + 2 := by
                simp [List.length_append]
                omega
              have htd := toDec_length_pos l.length
              have hitems : vheightItems l ≤ ei.length := by
                apply vheightItems_le
                intro v hv
                obtain ⟨e2, h1, h2⟩ := encItems_mem l ei hE v hv
                have h3 : vheight v ≤ e2.length := by
                  apply ih e2.length ?_ v e2 le_rfl h1
                  rw [hlen] at hN
                  omega
                omega
              have hva : vheight (.array l) = vheightItems l + 1 := by simp [vheight]
              rw [hva, hlen]
              omega
      | object l =>
          cases hE : encProps l with
          | none => simp [encVal, hE] at he
          | some ei =>
              simp only [encVal, hE, Option.some.injEq] at he
              subst he
              have hlen : ('o' :: (toDec l.length ++ ':' :: ei)).length =
                  (toDec l.length).length + ei.length + 2 := by
                simp [List.length_append]
                omega
              have htd := toDec_length_pos l.length
              have hprops : vheightProps l ≤ ei.length := by
                apply vheightProps_le
                intro p hp
                obtain ⟨e2, h1, h2⟩ := encProps_mem l ei hE p hp
                have h3 : vheight p.2 ≤ e2.length := by
                  apply ih e2.length ?_ p.2 e2 le_rfl h1
                  rw [hlen] at hN
                  omega
                omega
              have hvo : vheight (.object l) = vheightProps l + 1 := by simp [vheight]
              rw [hvo, hlen]
              omega

theorem parseItems_encItems (fuel : Nat) (l : List SValue) :
    ∀ (e rest : List Char), encItems l = some e →
    (∀ v ∈ l, ∀ (e2 r2 : List Char), encVal v = some e2 →
        parseVal fuel (e2 ++ r2) = some (v, r2)) →
    parseItems fuel l.length (e ++ rest) = some (l, rest) := by
  induction l with
  | nil =>
      intro e rest he _
      simp only [encItems, Option.some.injEq] at he
      subst he
      simp [parseItems]
  | cons w ws ih =>
      intro e rest he hp
      cases hw : encVal w with
      | none => simp [encItems, hw] at he
      | some e1 =>
          cases hws : encItems ws with
          | none => simp [encItems, hw, hws] at he
          | some es =>
              simp only [encItems, hw, hws, Option.some.injEq] at he
              subst he
              have h1 : parseVal fuel (e1 ++ (es ++ rest)) = some (w, es ++ rest) :=
                hp w (by simp) e1 (es ++ rest) hw
              have h2 : parseItems fuel ws.length (es ++ rest) = some (ws, rest) :=
                ih es rest hws (fun v hv => hp v (by simp [hv]))
              simp only [List.append_assoc, List.length_cons]
              simp [parseItems, h1, h2]

theorem parsePropsN_encProps (fuel : Nat) (l : List (List Char × SValue)) :
    ∀ (e rest : List Char), encProps l = some e →
    (∀ p ∈ l, ∀ (e2 r2 : List Char), encVal p.2 = some e2 →
        parseVal fuel (e2 ++ r2) = some (p.2, r2)) →
    parsePropsN fuel l.length (e ++ rest) = some (l, rest) := by
  induction l with
  | nil =>
      intro e rest he _
      simp only [encProps, Option.some.injEq] at he
      subst he
      simp [parsePropsN]
  | cons p ps ih =>
      obtain ⟨k, w⟩ := p
      intro e rest he hp
      cases hw : encVal w with
      | none => simp [encProps, hw] at he
      | some e1 =>
          cases hps : encProps ps with
          | none => simp [encProps, hw, hps] at he
          | some es =>
              simp only [encProps, hw, hps, Option.some.injEq] at he
              subst he
              have h1 : parseLenStr (encStr k ++ (e1 ++ (es ++ rest)))
                  = some (k, e1 ++ (es ++ rest)) := parseLenStr_encStr k _
              have h2 : parseVal fuel (e1 ++ (es ++ rest)) = some (w, es ++ rest) :=
                hp (k, w) (by simp) e1 (es ++ rest) hw
              have h3 : parsePropsN fuel ps.length (es ++ rest) = some (ps, rest) :=
                ih es rest hps (fun q hq => hp q (by simp [hq]))
              simp only [List.append_assoc, List.length_cons]
              simp [parsePropsN, h1, h2, h3]

theorem parseVal_encVal : ∀ (fuel : Nat) (v : SValue) (e rest : List Char),
    vheight v ≤ fuel → encVal v = some e →
    parseVal fuel (e ++ rest) = some (v, rest) := by
  intro fuel
  induction fuel using Nat.strong_induction_on with
  | _ fuel ih =>
      intro v e rest hh he
      cases fuel with
      | zero =>
          have := vheight_pos v
          omega
      | succ f =>
          cases v with
          | nil =>
              simp only [encVal, Option.some.injEq] at he
              subst he
              simp [parseVal]
          | boolean b =>
              cases b <;>
                (simp only [encVal, Option.some.injEq] at he
                 subst he
                 simp [parseVal])
          | number q =>
              simp only [encVal, Option.some.injEq] at he
              subst he
              rw [List.cons_append]
              simp [parseVal, parseRat_encRat q rest]
          | str s =>
              simp only [encVal, Option.some.injEq] at he
              subst he
              rw [List.cons_append]
              simp [parseVal, parseLenStr_encStr s rest]
          | func nm ar => simp [encVal] at he
          | tensor sh d =>
              simp only [encVal, Option.some.injEq] at he
              subst he
              rw [List.cons_append, List.append_assoc]
              simp [parseVal, parseNatList_enc sh (encRatList d ++ rest),
                parseRatList_enc d rest]
          | array l =>
              cases hE : encItems l with
              | none => simp [encVal, hE] at he
              | some ei =>
                  simp only [encVal, hE, Option.some.injEq] at he
                  subst he
                  have hva : vheight (.array l) = vheightItems l + 1 := by simp [vheight]
                  have hfuel : vheightItems l ≤ f := by
                    rw [hva] at hh
                    omega
                  have hitems : parseItems f l.length (ei ++ rest) = some (l, rest) := by
                    apply parseItems_encItems f l ei rest hE
                    intro v hv e2 r2 he2
                    exact ih f (by omega) v e2 r2
                      (le_trans (vheightItems_mem l v hv) hfuel) he2
                  rw [List.cons_append, List.append_assoc, List.cons_append]
                  simp [parseVal, parseNat_toDec l.length (':' :: (ei ++ rest)) (by rfl),
                    expectChar_cons, hitems]
          | object l =>
              cases hE : encProps l with
              | none => simp [encVal, hE] at he
              | some ei =>
                  simp only [encVal, hE, Option.some.injEq] at he
                  subst he
                  have hvo : vheight (.object l) = vheightProps l + 1 := by simp [vheight]
                  have hfuel : vheightProps l ≤ f := by
                    rw [hvo] at hh
                    omega
                  have hprops : parsePropsN f l.length (ei ++ rest) = some (l, rest) := by
                    apply parsePropsN_encProps f l ei rest hE
                    intro p hp e2 r2 he2
                    exact ih f (by omega) p.2 e2 r2
                      (le_trans (vheightProps_mem l p hp) hfuel) he2
                  rw [List.cons_append, List.append_assoc, List.cons_append]
                  simp [parseVal, parseNat_toDec l.length (':' :: (ei ++ rest)) (by rfl),
                    expectChar_cons, hprops]

theorem deserialize_serialize (v : SValue) (e : List Char)
    (he : SValue.serialize v = some e) : SValue.deserialize e = some v := by
  have he2 : encVal v = some e := he
  have hv : vheight v ≤ e.length := vheight_le_encVal e.length v e le_rfl he2
  have h1 : parseVal (e.length + 1) (e ++ []) = some (v, []) :=
    parseVal_encVal (e.length + 1) v e [] (by omega) he2
  rw [List.append_nil] at h1
  unfold SValue.deserialize
  rw [h1]

theorem serializableItems_mem (l : List SValue) (h : serializableItems l = true) :
    ∀ v ∈ l, serializableB v = true := by
  induction l with
  | nil => intro v hv; cases hv
  | cons w ws ih =>
      simp only [serializableItems, Bool.and_eq_true] at h
      intro v hv
      rcases List.mem_cons.mp hv with h2 | h2
      · subst h2; exact h.1
      · exact ih h.2 v h2

theorem serializablePropsB_mem (l : List (List Char × SValue))
    (h : serializablePropsB l = true) : ∀ p ∈ l, serializableB p.2 = true := by
  induction l with
  | nil => intro p hp; cases hp
  | cons w ws ih =>
      simp only [serializablePropsB, Bool.and_eq_true] at h
      intro p hp
      rcases List.mem_cons.mp hp with h2 | h2
      · subst h2; exact h.1
      · exact ih h.2 p h2

theorem encItems_total (l : List SValue)
    (h : ∀ v ∈ l, ∃ e, encVal v = some e) : ∃ es, encItems l = some es := by
  induction l with
  | nil => exact ⟨[], by simp [encItems]⟩
  | cons w ws ih =>
      obtain ⟨e1, he1⟩ := h w (by simp)
      obtain ⟨es, hes⟩ := ih (fun v hv => h v (by simp [hv]))
      exact ⟨e1 ++ es, by simp [encItems, he1, hes]⟩

theorem encProps_total (l : List (List Char × SValue))
    (h : ∀ p ∈ l, ∃ e, encVal p.2 = some e) : ∃ es, encProps l = some es := by
  induction l with
  | nil => exact ⟨[], by simp [encProps]⟩
  | cons w ws ih =>
      obtain ⟨k, v0⟩ := w
      obtain ⟨e1, he1⟩ := h (k, v0) (by simp)
      obtain ⟨es, hes⟩ := ih (fun p hp => h p (by simp [hp]))
      exact ⟨encStr k ++ (e1 ++ es), by simp [encProps, he1, hes]⟩

theorem encVal_total : ∀ (N : Nat) (v : SValue), vheight v ≤ N →
    serializableB v = true → ∃ e, encVal v = some e := by
  intro N
  induction N using Nat.strong_induction_on with
  | _ N ih =>
      intro v hh hs
      cases v with
      | nil => exact ⟨['z'], by simp [encVal]⟩
      | boolean b =>
          cases b
          · exact ⟨['f'], by simp [encVal]⟩
          · exact ⟨['t'], by simp [encVal]⟩
      | number q => exact ⟨'n' :: encRat q, by simp [encVal]⟩
      | str s => exact ⟨'s' :: encStr s, by simp [encVal]⟩
      | func nm ar => simp [serializableB] at hs
      | tensor sh d =>
          exact ⟨'T' :: (encNatList sh ++ encRatList d), by simp [encVal]⟩
      | array l =>
          have hva : vheight (.array l) = vheightItems l + 1 := by simp [vheight]
          have hs2 : serializableItems l = true := by
            simpa [serializableB] using hs
          have hex : ∀ v ∈ l, ∃ e, encVal v = some e := by
            intro v hv
            apply ih (vheightItems l) ?_ v (vheightItems_mem l v hv)
              (serializableItems_mem l hs2 v hv)
            omega
          obtain ⟨es, hes⟩ := encItems_total l hex
          exact ⟨'a' :: (toDec l.length ++ ':' :: es), by simp [encVal, hes]⟩
      | object l =>
          have hvo : vheight (.object l) = vheightProps l + 1 := by simp [vheight]
          have hs2 : serializablePropsB l = true := by
            simpa [serializableB] using hs
          have hex : ∀ p ∈ l, ∃ e, encVal p.2 = some e := by
            intro p hp
            apply ih (vheightProps l) ?_ p.2 (vheightProps_mem l p hp)
              (serializablePropsB_mem l hs2 p hp)
            omega
          obtain ⟨es, hes⟩ := encProps_total l hex
          exact ⟨'o' :: (toDec l.length ++ ':' :: es), by simp [encVal, hes]⟩

theorem assocFind_assocSet_same {β : Type} (e : List (List Char × β))
    (k : List Char) (v : β) : assocFind (assocSet e k v) k = some v := by
  induction e with
  | nil => simp [assocSet, assocFind]
  | cons p rest ih =>
      obtain ⟨k2, w⟩ := p
      by_cases h : k2 = k
      · simp [assocSet, assocFind, h]
      · simp [assocSet, assocFind, h, ih]

theorem assocFind_assocSet_other {β : Type} (e : List (List Char × β))
    (k key : List Char) (v : β) (h : key ≠ k) :
    assocFind (assocSet e k v) key = assocFind e key := by
  have hk : ¬k = key := fun hk => h hk.symm
  induction e with
  | nil => simp [assocSet, assocFind, hk]
  | cons p rest ih =>
      obtain ⟨k2, w⟩ := p
      by_cases h2 : k2 = k
      · subst h2
        simp [assocSet, assocFind, hk]
      · simp only [assocSet, if_neg h2]
        by_cases h3 : k2 = key
        · simp [assocFind, h3]
        · simp [assocFind, h3, ih]

/-- One step of the tokenizer loop at a newline character: a NEWLINE
token is emitted, the line counter advances and the column resets. -/
theorem tokenizeLoop_newline_step (fuel : Nat) (cs : List Char) (line : Nat) :
    SimpleTokenizer.tokenizeLoop (fuel + 1) ('\n' :: cs) line 1 =
      ⟨.NEWLINE, ['\\', 'n'], line, 2⟩ ::
        SimpleTokenizer.tokenizeLoop fuel cs (line + 1) 1 := rfl

/-- The tokenizer loop on a run of `n` newline characters yields one
NEWLINE token per character, then the EOF token. -/
theorem tokenizeLoop_newlines (n : Nat) : ∀ line : Nat,
    SimpleTokenizer.tokenizeLoop (n + 1) (List.replicate n '\n') line 1 =
      ((List.range n).map fun k =>
        ⟨.NEWLINE, ['\\', 'n'], line + k, 2⟩) ++ [⟨.EOF_TOKEN, [], line + n, 1⟩] := by
  induction n with
  | zero => intro line; rfl
  | succ m ih =>
      intro line
      rw [List.replicate_succ,
        tokenizeLoop_newline_step (m + 1) (List.replicate m '\n') line,
        ih (line + 1)]
      rw [List.range_succ_eq_map]
      simp [List.map_map, Function.comp_def, Nat.add_assoc, Nat.add_comm,
        Nat.add_left_comm]

/- ===================================================================
   Part 4.  Claim theorems.
   =================================================================== -/

/-- Claim C1 (status: code_bug) — the claim states that executing
`var x = 2 + 3 * 4; print(x);` prints `14` because the evaluator applies
the precedence-climbing tier order.  The repository's only interpreter
implementation (the stub in src/Src/main.cpp; the tier chain declared in
interpreter.h has no implementation in the repository) does no expression
evaluation at all: `handleVariableDeclaration` stores the single token
after `=`, so `x` holds the text `2`, and `handlePrintStatement` prints
the token after `print`, which is `(`.  This theorem evaluates the
embedded code at the claim's input: the declared variable holds `"2"`
(not 14) and the printed line is `"("` (not `14`). -/
theorem claim_C1_failing_eval :
    NexusInterpreter.execute [] "var x = 2 + 3 * 4; print(x);".toList =
      ([("x".toList, "2".toList)],
       [.varDecl "x".toList "2".toList, .printed "(".toList]) := by decide

/-- Claim C2 (status: code_bug) — the claim states that tokenizing an
unterminated string raises a LexError carrying the opening quote's
line/column and produces no token.  `SimpleTokenizer::string` (the only
lexer implementation in the repository; the `Lexer`/`LexerError` pair of
lexer.h has no implementation there) raises nothing: it returns a STRING
token whose text is the sentinel `"Unterminated string"` carrying the
end-of-input position.  This theorem evaluates the embedded tokenizer at
the claim's input `"abc`: a STRING token is produced, at line 1 column 5
(the end of input), not at the opening quote (line 1 column 1). -/
theorem claim_C2_failing_eval :
    SimpleTokenizer.tokenize "\"abc".toList =
      [⟨.STRING, "Unterminated string".toList, 1, 5⟩,
       ⟨.EOF_TOKEN, [], 1, 5⟩] := by decide

/-- Claim C4 (status: code_bug) — the claim states that reading an
undefined identifier fails with a NameError and in particular that
printing an undefined name never silently yields the identifier's own
text.  `handlePrintStatement` in src/Src/main.cpp does exactly what the
claim rules out: when the token after `print` is neither quoted nor a
known variable it prints the token text itself.  This theorem evaluates
the embedded interpreter on `print x` with no variables defined: the
output is the identifier's own text `x`, and no error is reported. -/
theorem claim_C4_failing_eval :
    NexusInterpreter.execute [] "print x".toList =
      ([], [.printed "x".toList]) := by decide

/-- Claim C5, counterexample — the claim states that for every source
text the token sequence contains no newline token.  Tokenizing the
one-character source `"\n"` produces a NEWLINE token. -/
theorem claim_C5_counterexample :
    (⟨.NEWLINE, ['\\', 'n'], 1, 2⟩ : SimpleTokenizer.Token) ∈
      SimpleTokenizer.tokenize "\n".toList := by decide

/-- Claim C5 as amended (status: corrected) — newlines are not dropped as
insignificant whitespace: each newline character reached outside a string
literal is emitted as a NEWLINE token (value `"\n"`, with the line counter
advancing and the column resetting after it).  In particular a source of
`n` newline characters tokenizes to `n` NEWLINE tokens followed by EOF. -/
theorem claim_C5_amended (n : Nat) :
    SimpleTokenizer.tokenize (List.replicate n '\n') =
      ((List.range n).map fun k =>
        ⟨.NEWLINE, ['\\', 'n'], 1 + k, 2⟩) ++ [⟨.EOF_TOKEN, [], 1 + n, 1⟩] := by
  have h := tokenizeLoop_newlines n 1
  simpa [SimpleTokenizer.tokenize] using h

/-- Claim C10 (status: confirmed) — `NexusInterpreter::execute` on the
empty source returns immediately (before constructing a tokenizer),
produces no output and leaves the variable bindings unchanged. -/
theorem claim_C10_empty_execute (vars : NexusInterpreter.Vars) :
    NexusInterpreter.execute vars [] = (vars, []) := rfl

/-- Claim C3 (status: confirmed, spec-modelled) — in every environment
chain in which the definition succeeds, defining a constant binding and
then assigning to the same name fails with `ConstAssignError` and the
binding keeps its original value, while defining a non-constant binding
and then assigning succeeds, after which `get` returns the newly assigned
value. -/
theorem claim_C3_const_protection (env env1 env2 : Env) (name : List Char)
    (v1 v2 : SValue)
    (h1 : Environment.defineConstant env name v1 = .ok env1)
    (h2 : Environment.define env name v1 false = .ok env2) :
    (Environment.assign env1 name v2 = .error .ConstAssignError ∧
     Environment.get env1 name = .ok v1) ∧
    ∃ env3, Environment.assign env2 name v2 = .ok env3 ∧
      Environment.get env3 name = .ok v2 := by
  match env with
  | [] => simp [Environment.defineConstant, Environment.define] at h1
  | s :: parents =>
      have henv1 : env1 = assocSet s name ⟨v1, true⟩ :: parents := by
        simp only [Environment.defineConstant, Environment.define] at h1
        cases hf : assocFind s name with
        | none => rw [hf] at h1; simpa using h1.symm
        | some b =>
            rw [hf] at h1
            by_cases hc : b.isConst
            · simp [hc] at h1
            · simp [hc] at h1; exact h1.symm
      have henv2 : env2 = assocSet s name ⟨v1, false⟩ :: parents := by
        simp only [Environment.define] at h2
        cases hf : assocFind s name with
        | none => rw [hf] at h2; simpa using h2.symm
        | some b =>
            rw [hf] at h2
            by_cases hc : b.isConst
            · simp [hc] at h2
            · simp [hc] at h2; exact h2.symm
      subst henv1 henv2
      refine ⟨⟨?_, ?_⟩, ?_⟩
      · simp [Environment.assign, assocFind_assocSet_same]
      · simp [Environment.get, assocFind_assocSet_same]
      · refine ⟨assocSet (assocSet s name ⟨v1, false⟩) name ⟨v2, false⟩ :: parents,
          ?_, ?_⟩
        · simp [Environment.assign, assocFind_assocSet_same]
        · simp [Environment.get, assocFind_assocSet_same]

/-- Witness for C3 at a concrete chain: one scope, name `x`, constant 1
versus mutable 1 assigned 2. -/
theorem claim_C3_witness :
    (Environment.assign [[("x".toList, ⟨.number 1, true⟩)]] "x".toList (.number 2)
        = .error .ConstAssignError ∧
     Environment.get [[("x".toList, ⟨.number 1, true⟩)]] "x".toList
        = .ok (.number 1)) ∧
    ∃ env3,
      Environment.assign [[("x".toList, ⟨.number 1, false⟩)]] "x".toList (.number 2)
          = .ok env3 ∧
      Environment.get env3 "x".toList = .ok (.number 2) :=
  claim_C3_const_protection [[]]
    [[("x".toList, ⟨.number 1, true⟩)]] [[("x".toList, ⟨.number 1, false⟩)]]
    "x".toList (.number 1) (.number 2) rfl rfl

/-- Claim C9 (status: confirmed, spec-modelled) — variant-dependent copy:
assigning a variable holding an Array copies the contents, so mutating an
element through the copy leaves the original variable's value unchanged;
assigning a variable holding a Tensor copies only the shared reference,
so an in-place `fill` through the copy is visible when the tensor is read
through the original variable. -/
theorem claim_C9_copy_semantics (env : RVars) (h : TensorHeap)
    (a b : List Char) (l : List RValue) (i : Nat) (w : RValue) (id : Nat)
    (x : ℚ) (hab : a ≠ b) (hid : id < h.cells.length) :
    (assocFind (mutateArrayElem (copyAssign (assocSet env a (.array l)) b a) b i w) a
       = some (.array l)) ∧
    (readTensorData
        (mutateTensorFill h (copyAssign (assocSet env a (.tensorRef id)) b a) b x)
        (copyAssign (assocSet env a (.tensorRef id)) b a) a
       = some (List.replicate (h.cells.getD id []).length x)) := by
  constructor
  · have hfa : assocFind (assocSet env a (.array l)) a = some (.array l) :=
      assocFind_assocSet_same env a _
    simp only [copyAssign, hfa]
    have hfb : assocFind (assocSet (assocSet env a (.array l)) b (.array l)) b
        = some (.array l) := assocFind_assocSet_same _ b _
    simp only [mutateArrayElem, hfb]
    rw [assocFind_assocSet_other _ b a _ hab,
      assocFind_assocSet_other _ b a _ hab]
    exact hfa
  · have hfa : assocFind (assocSet env a (.tensorRef id)) a
        = some (.tensorRef id) := assocFind_assocSet_same env a _
    simp only [copyAssign, hfa]
    have hfb : assocFind (assocSet (assocSet env a (.tensorRef id)) b (.tensorRef id)) b
        = some (.tensorRef id) := assocFind_assocSet_same _ b _
    have hfa2 : assocFind (assocSet (assocSet env a (.tensorRef id)) b (.tensorRef id)) a
        = some (.tensorRef id) := by
      rw [assocFind_assocSet_other _ b a _ hab]; exact hfa
    simp only [mutateTensorFill, hfb, readTensorData, hfa2, TensorHeap.fill]
    congr 1
    rw [List.getD_eq_getElem?_getD, List.getElem?_set_self, List.getD_eq_getElem?_getD]
    · simp
    · exact hid

/-- Claim C8 (status: confirmed, spec-modelled) — serialization:
(1) `serialize` followed by `deserialize` round-trips every value it
accepts back to an equal value; (2) every function-free value — that is,
every variant except Function, including values nested in arrays,
objects and tensors — is accepted by `serialize`; (3) in particular every
string value round-trips; (4) calling `serialize` on a Function value
fails. -/
theorem claim_C8_serialize_roundtrip :
    (∀ (v : SValue) (e : List Char),
        SValue.serialize v = some e → SValue.deserialize e = some v) ∧
    (∀ v : SValue, serializableB v = true → ∃ e, SValue.serialize v = some e) ∧
    (∀ s : List Char, ∃ e, SValue.serialize (.str s) = some e ∧
        SValue.deserialize e = some (.str s)) ∧
    (∀ (name : List Char) (ar : Nat), SValue.serialize (.func name ar) = none) := by
  refine ⟨deserialize_serialize, ?_, ?_, ?_⟩
  · intro v hs
    exact encVal_total (vheight v) v le_rfl hs
  · intro s
    refine ⟨'s' :: encStr s, ?_, ?_⟩
    · simp [SValue.serialize, encVal]
    · exact deserialize_serialize (.str s) _ (by simp [SValue.serialize, encVal])
  · intro name ar
    simp [SValue.serialize, encVal]

/-- Witness for C8 at a concrete value containing every serializable
variant: the encoding deserializes back to the value, and serializing a
function fails. -/
theorem claim_C8_witness :
    SValue.deserialize
        ((SValue.serialize (.array [.number 3, .str ['h', 'i'], .boolean true, .nil,
            .object [(['k'], .number (-7 / 2))], .tensor [2, 2] [1, 2, 3, 4]])).getD [])
      = some (.array [.number 3, .str ['h', 'i'], .boolean true, .nil,
            .object [(['k'], .number (-7 / 2))], .tensor [2, 2] [1, 2, 3, 4]]) ∧
    SValue.serialize (.func ['f'] 2) = none :=
  ⟨claim_C8_serialize_roundtrip.1 _ _ rfl,
   claim_C8_serialize_roundtrip.2.2.2 ['f'] 2⟩

/-- Claim C6 (status: confirmed, spec-modelled) — every tensor-producing
operation establishes and validates the invariant that the flat data
length equals the product of the shape: construction (zero-filled and
from data), element-wise arithmetic (all of `+ - * /` are instances of
`ewise`), matrix multiplication, transposition and reshaping. -/
theorem claim_C6_tensor_invariant (a b : Tensor) (ha : a.valid) (hb : b.valid) :
    (∀ (shape : List Nat) (t : Tensor), Tensor.make shape = some t → t.valid) ∧
    (∀ (shape : List Nat) (d : List ℚ) (t : Tensor),
        Tensor.fromData shape d = some t → t.valid) ∧
    (∀ (f : ℚ → ℚ → ℚ) (t : Tensor), Tensor.ewise f a b = .ok t → t.valid) ∧
    (∀ t : Tensor, Tensor.matmul a b = .ok t → t.valid) ∧
    (∀ t : Tensor, Tensor.transpose a = .ok t → t.valid) ∧
    (∀ (shape : List Nat) (t : Tensor), Tensor.reshape a shape = .ok t → t.valid) := by
  refine ⟨?_, ?_, ?_, ?_, ?_, ?_⟩
  · intro shape t h
    unfold Tensor.make at h
    split at h
    · cases h
      simp [Tensor.valid]
    · cases h
  · intro shape d t h
    unfold Tensor.fromData at h
    split at h
    next hc =>
      cases h
      simp [Tensor.valid, hc.2.2]
    next => cases h
  · intro f t h
    unfold Tensor.ewise at h
    split at h
    next hs =>
      cases h
      simp only [Tensor.valid, List.length_zipWith]
      rw [ha, hb, hs]
      exact Nat.min_self _
    next => cases h
  · intro t h
    unfold Tensor.matmul at h
    split at h
    next m k k2 n hsa hsb =>
      split at h
      next hk =>
        cases h
        simp [Tensor.valid]
      next => cases h
    next => cases h
  · intro t h
    unfold Tensor.transpose at h
    split at h
    next r c hsa =>
      cases h
      simp [Tensor.valid]
    next => cases h
  · intro shape t h
    unfold Tensor.reshape at h
    split at h
    next hc =>
      cases h
      simp [Tensor.valid, hc.2.2]
    next => cases h

/-- Witness for C6: an element-wise combination of a concrete valid 2×2
tensor with itself yields a tensor satisfying the invariant. -/
theorem claim_C6_witness : Tensor.valid ⟨[2, 2], [1, 2, 3, 4]⟩ :=
  (claim_C6_tensor_invariant ⟨[2, 2], [1, 2, 3, 4]⟩ ⟨[2, 2], [1, 2, 3, 4]⟩ rfl rfl).2.2.1
    (fun x _ => x) ⟨[2, 2], [1, 2, 3, 4]⟩ rfl

/-- Core of the transpose involution: applying the row-major transpose
index transformation twice gives back the original flat data. -/
theorem transpose_data_involution (r c0 : Nat) (d : List ℚ) (hd : d.length = r * c0) :
    ((List.range (r * c0)).map fun k =>
        (((List.range (c0 * r)).map fun k2 => d.getD (k2 % r * c0 + k2 / r) 0).getD
          (k % c0 * r + k / c0) 0)) = d := by
  apply List.ext_getElem?
  intro i
  by_cases hi : i < r * c0
  · rw [List.getElem?_map, List.getElem?_range hi]
    simp only [Option.map_some']
    have hc0 : 0 < c0 := by
      rcases Nat.eq_zero_or_pos c0 with h | h
      · subst h; omega
      · exact h
    have hr : 0 < r := by
      rcases Nat.eq_zero_or_pos r with h | h
      · subst h; omega
      · exact h
    have hq : i / c0 < r := (Nat.div_lt_iff_lt_mul hc0).mpr hi
    have hj : i % c0 < c0 := Nat.mod_lt _ hc0
    have hidx : i % c0 * r + i / c0 < c0 * r := by
      have h1 : i % c0 * r + i / c0 < (i % c0 + 1) * r := by
        rw [Nat.add_mul, Nat.one_mul]
        omega
      have h2 : (i % c0 + 1) * r ≤ c0 * r := Nat.mul_le_mul_right r hj
      omega
    rw [List.getD_eq_getElem?_getD, List.getElem?_map, List.getElem?_range hidx]
    simp only [Option.map_some', Option.getD_some]
    have hmod : (i % c0 * r + i / c0) % r = i / c0 := by
      rw [Nat.mul_comm (i % c0) r, Nat.mul_add_mod]
      exact Nat.mod_eq_of_lt hq
    have hdiv : (i % c0 * r + i / c0) / r = i % c0 := by
      rw [Nat.mul_comm (i % c0) r, Nat.mul_add_div hr, Nat.div_eq_of_lt hq]
      omega
    rw [hmod, hdiv]
    have hi2 : i / c0 * c0 + i % c0 = i := by
      rw [Nat.mul_comm (i / c0) c0]
      exact Nat.div_add_mod i c0
    rw [hi2]
    have hil : i < d.length := by omega
    rw [List.getD_eq_getElem?_getD, List.getElem?_eq_getElem hil]
    simp
  · rw [List.getElem?_eq_none, List.getElem?_eq_none]
    · omega
    · simp only [List.length_map, List.length_range]
      omega

/-- Claim C7 (status: confirmed, spec-modelled) — transposing a valid 2-D
tensor twice gives a tensor with the original shape and element-for-element
identical flat contents. -/
theorem claim_C7_transpose_involution (a b c : Tensor) (ha : a.valid)
    (h1 : Tensor.transpose a = .ok b) (h2 : Tensor.transpose b = .ok c) :
    c.shape = a.shape ∧ c.data = a.data := by
  have ha2 : a.data.length = a.shape.prod := ha
  unfold Tensor.transpose at h1
  split at h1
  next r c0 hsa =>
    cases h1
    have h2b : (Except.ok (⟨[r, c0], (List.range (r * c0)).map fun k =>
        (((List.range (c0 * r)).map fun k2 => a.data.getD (k2 % r * c0 + k2 / r) 0).getD
          (k % c0 * r + k / c0) 0)⟩ : Tensor) : Except TensorError Tensor) = .ok c := h2
    cases h2b
    have hd : a.data.length = r * c0 := by
      rw [ha2, hsa]
      simp
    exact ⟨hsa.symm, transpose_data_involution r c0 a.data hd⟩
  next => cases h1

/-- Witness for C7 at the concrete tensor `[[1,2,3],[4,5,6]]` (shape
`[2,3]`): double transposition returns its shape and data. -/
theorem claim_C7_witness :
    (Tensor.mk [2, 3] [1, 2, 3, 4, 5, 6]).shape = (Tensor.mk [2, 3] [1, 2, 3, 4, 5, 6]).shape ∧
    (Tensor.mk [2, 3] [1, 2, 3, 4, 5, 6]).data = (Tensor.mk [2, 3] [1, 2, 3, 4, 5, 6]).data :=
  claim_C7_transpose_involution ⟨[2, 3], [1, 2, 3, 4, 5, 6]⟩
    ⟨[3, 2], [1, 4, 2, 5, 3, 6]⟩ ⟨[2, 3], [1, 2, 3, 4, 5, 6]⟩ rfl rfl rfl

/-- Witness for C9 at concrete names `a`/`b`, a one-element array and a
one-cell tensor heap. -/
theorem claim_C9_witness :
    (assocFind (mutateArrayElem (copyAssign (assocSet [] ['a'] (.array [.number 7]))
        ['b'] ['a']) ['b'] 0 (.number 9)) ['a'] = some (.array [.number 7])) ∧
    (readTensorData
        (mutateTensorFill ⟨[[1, 2]]⟩ (copyAssign (assocSet [] ['a'] (.tensorRef 0))
          ['b'] ['a']) ['b'] 5)
        (copyAssign (assocSet [] ['a'] (.tensorRef 0)) ['b'] ['a']) ['a']
      = some (List.replicate ((⟨[[1, 2]]⟩ : TensorHeap).cells.getD 0 []).length 5)) :=
  claim_C9_copy_semantics [] ⟨[[1, 2]]⟩ ['a'] ['b'] [.number 7] 0 (.number 9) 0 5
    (by decide) (by decide)

